import Mathlib

/-!
# GutenDocs extraction pipeline — shallow embedding

Embedding of `src/parser/extract.js` (the documentation-extraction
pipeline of GutenDocs): the acorn-walk `findNodeAfter` forward search,
the `onComment` doc-comment collection filter, the comment-to-node
binding in `acornParse`, and the `extract` orchestrator that maps the
selected file list to per-file results while accumulating the paths of
files whose parse threw.

JavaScript `undefined` for a name is modelled as `Option.none`; machine
strings are Lean `String`; the acorn parser itself is external, so a
file's contribution is abstracted by its parse outcome (a syntax tree
plus the comment events `onComment` received, or a thrown parse error).
-/

namespace GutenDocs

/-- A declarator's binding target (`declaration.id` in the acorn AST):
either a plain identifier or a destructuring pattern.  JS reads
`declaration.id.name`, which is the identifier's name or `undefined`
for a pattern node. -/
inductive Pattern where
  | ident (name : String)
  | objectPattern
  | arrayPattern
deriving DecidableEq, Repr

/-- `pattern.name` property access: `undefined` (none) unless the node
is an `Identifier`. -/
def Pattern.name : Pattern → Option String
  | .ident n => some n
  | .objectPattern => none
  | .arrayPattern => none

/-- One `VariableDeclarator` of a `VariableDeclaration`. -/
structure Declarator where
  id : Pattern
deriving DecidableEq, Repr

/-- The node kinds `acornParse` dispatches on (`switch (node.type)`),
with the payload each branch reads.  `methodDefinition` carries
`node.key.name` (an `Option` since a computed key has no `.name`);
`functionDeclaration` carries `node.id.name`; `other` is any further
node type the base walker of `acorn/dist/walk` knows how to visit;
`jsx` is a node type produced by the acorn-jsx plugin (JSXElement,
JSXExpressionContainer, …) for which that base walker has no visitor
function at all. -/
inductive NodeKind where
  | methodDefinition (keyName : Option String)
  | variableDeclaration (declarations : List Declarator)
  | functionDeclaration (idName : String)
  | other
  | jsx
deriving DecidableEq, Repr

/-- Whether `base[node.type]` exists in `acorn/dist/walk`: the walker
calls `base[type](node, st, c)` to descend, and for a JSX node type
that lookup yields `undefined`, so the call raises a TypeError. -/
def baseHandled : NodeKind → Bool
  | .jsx => false
  | _ => true

/-- An acorn syntax node: `start`/`end` source offsets (the latter
named `stop` since `end` is reserved in Lean), its kind, and the child
nodes the base walker visits, in source order. -/
inductive Node where
  | mk (start stop : Nat) (kind : NodeKind) (children : List Node)
deriving Repr

def Node.start : Node → Nat
  | .mk s _ _ _ => s

def Node.stop : Node → Nat
  | .mk _ e _ _ => e

def Node.kind : Node → NodeKind
  | .mk _ _ k _ => k

def Node.children : Node → List Node
  | .mk _ _ _ cs => cs

mutual
/-- `acornWalk.findNodeAfter(tree, pos)` from `acorn/dist/walk`: a
pre-order walk that skips any node ending before `pos` and stops at
the first visited node whose start offset is `≥ pos`; `.ok none`
models the `undefined` return when no node qualifies.  To go below a
node that is neither skipped nor the hit, the walker calls
`base[type](node, st, c)`; only its internal `Found` marker is caught,
so when the node's type has no base visitor (a JSX node) the resulting
TypeError escapes `findNodeAfter` — modelled by `.error ()`. -/
def findNodeAfter (node : Node) (pos : Nat) : Except Unit (Option Node) :=
  match node with
  | .mk s e k cs =>
    if e < pos then .ok none
    else if pos ≤ s then .ok (some (.mk s e k cs))
    else if baseHandled k then findNodeAfterList cs pos
    else .error ()

/-- The walk over a node's children in source order: the first hit
wins, and a TypeError raised below any child propagates. -/
def findNodeAfterList (nodes : List Node) (pos : Nat) : Except Unit (Option Node) :=
  match nodes with
  | [] => .ok none
  | n :: ns =>
    match findNodeAfter n pos with
    | .error e => .error e
    | .ok (some r) => .ok (some r)
    | .ok none => findNodeAfterList ns pos
end

mutual
/-- A node together with all its descendants, in pre-order. -/
def subnodes (node : Node) : List Node :=
  match node with
  | .mk s e k cs => .mk s e k cs :: subnodesList cs

def subnodesList (nodes : List Node) : List Node :=
  match nodes with
  | [] => []
  | n :: ns => subnodes n ++ subnodesList ns
end

/-- Children lie within the parent's source span. -/
def childrenBounded (s e : Nat) : List Node → Bool
  | [] => true
  | c :: cs => (decide (s ≤ c.start) && decide (c.stop ≤ e)) && childrenBounded s e cs

/-- Sibling nodes are disjoint and in source order. -/
def siblingsOrdered : List Node → Bool
  | [] => true
  | [_] => true
  | a :: b :: rest => decide (a.stop ≤ b.start) && siblingsOrdered (b :: rest)

mutual
/-- Well-formedness of an acorn syntax tree: spans are proper, children
stay inside their parent and appear in disjoint source order. -/
def wf (node : Node) : Bool :=
  match node with
  | .mk s e _ cs =>
    decide (s ≤ e) && childrenBounded s e cs && siblingsOrdered cs && wfList cs

def wfList (nodes : List Node) : Bool :=
  match nodes with
  | [] => true
  | n :: ns => wf n && wfList ns
end

mutual
/-- Whether the base walker can visit every node of the tree: no
subnode has a JSX node type. -/
def jsxFree (node : Node) : Bool :=
  match node with
  | .mk _ _ k cs => baseHandled k && jsxFreeList cs

/-- Forest version of `jsxFree`. -/
def jsxFreeList (nodes : List Node) : Bool :=
  match nodes with
  | [] => true
  | n :: ns => jsxFree n && jsxFreeList ns
end

/-- One invocation of acorn's `onComment(block, text, start, end)`
callback: whether the comment was a block comment, its text with the
`/*`‐`*/` (resp. `//`) delimiters stripped, and the source offset
immediately after the comment (`end`, the fourth argument `d`). -/
structure CommentEvent where
  block : Bool
  text : String
  endOffset : Nat
deriving DecidableEq, Repr

/-- A collected doc comment: `{comment: t, pos: d}` as pushed by the
`onComment` callback in `acornParse`. -/
structure RawComment where
  comment : String
  pos : Nat
deriving DecidableEq, Repr

/-- The body of the `onComment` callback: `if (b && t[0] === '*')`
push `{comment: t, pos: d}` onto `arr` (for an empty text, `t[0]` is
`undefined` in JS and the comparison fails; `String.front ""` is the
default character, likewise not `*`). -/
def onComment (arr : List RawComment) (e : CommentEvent) : List RawComment :=
  if e.block && (e.text.front == '*') then arr ++ [⟨e.text, e.endOffset⟩]
  else arr

/-- The comment list `arr` accumulated over a parse: every `onComment`
event in source order, filtered and pushed by the callback. -/
def collectComments (events : List CommentEvent) : List RawComment :=
  events.foldl onComment []

/-- The binder's output unit `{comment, name}`; `name` is an `Option`
because JS stores `undefined` when the bound node has no `.name`. -/
structure TaggedComment where
  comment : String
  name : Option String
deriving DecidableEq, Repr

/-- The body of the `arr.forEach` loop in `acornParse`, acting on the
accumulated `tagContent`: find the node after the comment, then `switch`
on its type, pushing one record for `MethodDefinition` or
`FunctionDeclaration`, one per declarator for `VariableDeclaration`
(in declaration order, via `node.declarations.forEach`), and nothing
otherwise or when `findNodeAfter` returned `undefined`.  A TypeError
thrown inside `findNodeAfter` (JSX descent) escapes the loop body
before this comment pushes anything; the `.error` payload is the
`tagContent` array as it stood at the throw. -/
def bindComment (tree : Node) (tagContent : List TaggedComment) (comment : RawComment) :
    Except (List TaggedComment) (List TaggedComment) :=
  match findNodeAfter tree comment.pos with
  | .error _ => .error tagContent
  | .ok none => .ok tagContent
  | .ok (some node) =>
    match node.kind with
    | .methodDefinition keyName => .ok (tagContent ++ [⟨comment.comment, keyName⟩])
    | .variableDeclaration declarations =>
      .ok (declarations.foldl (fun acc d => acc ++ [⟨comment.comment, d.id.name⟩]) tagContent)
    | .functionDeclaration idName => .ok (tagContent ++ [⟨comment.comment, some idName⟩])
    | .other => .ok tagContent
    | .jsx => .ok tagContent

/-- The `arr.forEach` walk over the collected comments in source
order.  `tagContent` is mutated in place in the source, so a throw
partway leaves the pushes of the earlier comments in the caller's
array — the `.error` payload carries exactly that partial content. -/
def bindAll (tree : Node) (comments : List RawComment) (tagContent : List TaggedComment) :
    Except (List TaggedComment) (List TaggedComment) :=
  match comments with
  | [] => .ok tagContent
  | c :: cs =>
    match bindComment tree tagContent c with
    | .error tc => .error tc
    | .ok tc => bindAll tree cs tc

/-- What one comment contributes on its own: `bindComment` run on an
empty accumulator. -/
def bindOne (tree : Node) (comment : RawComment) :
    Except (List TaggedComment) (List TaggedComment) :=
  bindComment tree [] comment

/-- Outcome of `parse(content, …)` for one file's text: either the
parser throws (malformed syntax), or it returns a syntax tree — which
may contain JSX nodes, on which the later binding walk can still
throw — after having fired the recorded `onComment` events.  The acorn
parser itself is external; a source text is abstracted by this
outcome. -/
inductive ParseOutcome where
  | failure
  | success (tree : Node) (events : List CommentEvent)

/-- `acornParse(content, tagContent)`: a parser throw propagates
before anything is pushed onto `tagContent` (the `arr.forEach` walk
only runs after `parse` returns), so that error carries `tagContent`
unchanged; on parser success the comment array is walked and
`tagContent` receives every binding in order — unless the walk throws
on a JSX descent, in which case the error carries the partial content
pushed so far. -/
def acornParse (po : ParseOutcome) (tagContent : List TaggedComment) :
    Except (List TaggedComment) (List TaggedComment) :=
  match po with
  | .failure => .error tagContent
  | .success tree events => bindAll tree (collectComments events) tagContent

/-- Outcome of `fs.readFileSync` for a selected file: a throw, or the
file's text (abstracted by its parse outcome). -/
inductive ReadOutcome where
  | readError
  | content (po : ParseOutcome)

/-- A file yielded by the Selector (`exclude`): its path and what
reading/parsing it would produce. -/
structure SFile where
  path : String
  read : ReadOutcome

/-- Per-file result `tag = {content, name}` built by `extract`. -/
structure FileResult where
  name : String
  content : List TaggedComment
deriving DecidableEq, Repr

/-- `errorHandler(file, gutenrc, e, badFiles)`: pushes the file onto
`badFiles` (its console output at higher verbosity is not modelled). -/
def errorHandler (file : String) (badFiles : List String) : List String :=
  badFiles ++ [file]

/-- The orchestrator's mutable state during `list.map`: the file
results built so far and the `badFiles` array. -/
structure ExtractState where
  results : List FileResult
  badFiles : List String
deriving DecidableEq, Repr

/-- One iteration of the `list.map` callback in `extract`, given that
the file's text was read: `tag.content` starts empty, `acornParse`
fills it, a throw from `acornParse` is caught by `errorHandler`, and
the tag is appended to the results either way — with whatever content
`tag.content` holds at that point (empty for a parse throw, the
partial pushes for a binding-walk throw). -/
def processFile (st : ExtractState) (path : String) (po : ParseOutcome) : ExtractState :=
  match acornParse po [] with
  | .error tc => { results := st.results ++ [⟨path, tc⟩], badFiles := errorHandler path st.badFiles }
  | .ok tagContent => { results := st.results ++ [⟨path, tagContent⟩], badFiles := st.badFiles }

/-- The `list.map` body of `extract` over the selected files in order.
A `readFileSync` throw is outside the `try`, so it escapes the map and
rejects the whole promise (modelled by `Except.error`); a parse throw
is caught and the run continues. -/
def runExtract (st : ExtractState) (files : List SFile) : Except Unit ExtractState :=
  match files with
  | [] => .ok st
  | f :: fs =>
    match f.read with
    | .readError => .error ()
    | .content po => runExtract (processFile st f.path po) fs

/-- `extract(arr)`: runs the per-file loop from an empty state and
resolves with `result` — the array of tags only.  `badFiles` is used
for console reporting inside `extract` and is not part of the resolved
value. -/
def extract (files : List SFile) : Except Unit (List FileResult) :=
  (runExtract ⟨[], []⟩ files).map (fun st => st.results)

/-- The tag `extract` builds for one file whose read succeeded: the
content `acornParse` left in `tag.content`, whether it returned or
threw. -/
def fileTag (f : SFile) : FileResult :=
  match f.read with
  | .readError => ⟨f.path, []⟩
  | .content po =>
    match acornParse po [] with
    | .error tc => ⟨f.path, tc⟩
    | .ok tc => ⟨f.path, tc⟩

/-- Whether a (readable) file's `acornParse` throws — at the parse
stage or during the binding walk. -/
def parseFailed (f : SFile) : Bool :=
  match f.read with
  | .readError => false
  | .content po =>
    match acornParse po [] with
    | .error _ => true
    | .ok _ => false

/-- Whether every selected file can be read from disk. -/
def allReadable (files : List SFile) : Prop :=
  ∀ f ∈ files, f.read ≠ .readError

/-! ## Concrete example inputs

Concrete trees transcribe what acorn produces on the spec's scenario
texts (offsets computed against the literal source strings). -/

/-- The tree for the 60-character source
`/** Adds two numbers */\nfunction add(a, b) { return a + b; }`:
a Program whose only statement is the function declaration at
offsets 24–60 (identifier, parameters, body and return inside). -/
def addTree : Node :=
  .mk 0 60 .other
    [.mk 24 60 (.functionDeclaration "add")
      [.mk 33 36 .other [],
       .mk 37 38 .other [],
       .mk 40 41 .other [],
       .mk 43 60 .other
         [.mk 45 58 .other
           [.mk 52 57 .other [.mk 52 53 .other [], .mk 56 57 .other []]]]]]

/-- The single `onComment` event fired while parsing the `add` source:
a block comment with text `* Adds two numbers ` ending at offset 23. -/
def addEvents : List CommentEvent :=
  [⟨true, "* Adds two numbers ", 23⟩]

/-- The collected doc comment of the `add` source. -/
def addComment : RawComment :=
  ⟨"* Adds two numbers ", 23⟩

/-- The tree for the 55-character source
`/** Config flag */\nconst DEBUG = true, VERBOSE = false;`:
a Program whose only statement is the two-declarator variable
declaration at offsets 19–55. -/
def configTree : Node :=
  .mk 0 55 .other
    [.mk 19 55 (.variableDeclaration [⟨.ident "DEBUG"⟩, ⟨.ident "VERBOSE"⟩])
      [.mk 25 37 .other [.mk 25 30 .other [], .mk 33 37 .other []],
       .mk 39 54 .other [.mk 39 46 .other [], .mk 49 54 .other []]]]

/-- The collected doc comment of the `config` source (ends at 18). -/
def configComment : RawComment :=
  ⟨"* Config flag ", 18⟩

/-- The tree for the 32-character source
`/** Point */\nconst { x, y } = p;`: the declarator binds an object
pattern, so `declaration.id.name` is `undefined`. -/
def destructuringTree : Node :=
  .mk 0 32 .other
    [.mk 13 32 (.variableDeclaration [⟨.objectPattern⟩])
      [.mk 19 31 .other [.mk 19 27 .other [], .mk 30 31 .other []]]]

/-- The collected doc comment of the destructuring source. -/
def destructuringComment : RawComment :=
  ⟨"* Point ", 12⟩

/-- A tree with two documented functions (`a` at 10–24, `b` at 40–60),
for exercising within-file comment order. -/
def twoFuncTree : Node :=
  .mk 0 100 .other
    [.mk 10 24 (.functionDeclaration "a") [],
     .mk 40 60 (.functionDeclaration "b") []]

/-- The comment events of the two-function source, in source order. -/
def twoFuncEvents : List CommentEvent :=
  [⟨true, "* A ", 9⟩, ⟨true, "* B ", 39⟩]

/-- A selected file that reads and parses cleanly. -/
def goodFile : SFile :=
  ⟨"src/add.js", .content (.success addTree addEvents)⟩

/-- A selected file whose text does not parse. -/
def badFile : SFile :=
  ⟨"src/broken.js", .content .failure⟩

/-- A file at the same path as `badFile` that parses but contains no
doc comments at all. -/
def emptyParseFile : SFile :=
  ⟨"src/broken.js", .content (.success (.mk 0 0 .other []) [])⟩

/-- A selected file whose `readFileSync` throws. -/
def unreadableFile : SFile :=
  ⟨"src/gone.js", .readError⟩

/-- A readable file with two doc comments. -/
def twoFuncFile : SFile :=
  ⟨"src/two.js", .content (.success twoFuncTree twoFuncEvents)⟩

/-- The tree for the 73-character source
`/** renders */\nfunction render() { return <div>{/** greeting */}</div>; }`:
the function declaration spans 15–73; its return argument is a
JSXElement at 42–70 with opening element, expression container (which
holds the second doc comment) and closing element as children — all
node types the base walker cannot visit. -/
def jsxTree : Node :=
  .mk 0 73 .other
    [.mk 15 73 (.functionDeclaration "render")
      [.mk 24 30 .other [],
       .mk 33 73 .other
         [.mk 35 71 .other
           [.mk 42 70 .jsx
             [.mk 42 47 .jsx [], .mk 47 64 .jsx [], .mk 64 70 .jsx []]]]]]

/-- The comment events of the JSX source, in source order: the file
comment ending at 14 and the comment inside the JSX expression
container ending at 63. -/
def jsxEvents : List CommentEvent :=
  [⟨true, "* renders ", 14⟩, ⟨true, "* greeting ", 63⟩]

/-- The second collected doc comment of the JSX source, sitting inside
the JSX element. -/
def jsxComment : RawComment :=
  ⟨"* greeting ", 63⟩

/-- A readable file whose binding walk throws on the JSX descent after
the first comment already pushed its tag. -/
def jsxFile : SFile :=
  ⟨"src/render.jsx", .content (.success jsxTree jsxEvents)⟩

/-! ## Helper lemmas: the tree walk -/

/-- Membership in the pre-order listing of a forest factors through one
of its trees. -/
theorem mem_subnodesList {m : Node} :
    ∀ {ns : List Node}, m ∈ subnodesList ns ↔ ∃ c ∈ ns, m ∈ subnodes c := by
  intro ns
  induction ns with
  | nil => simp [subnodesList]
  | cons n ns ih =>
    simp only [subnodesList, List.mem_append, ih, List.mem_cons]
    constructor
    · rintro (h | ⟨c, hc, hm⟩)
      · exact ⟨n, Or.inl rfl, h⟩
      · exact ⟨c, Or.inr hc, hm⟩
    · rintro ⟨c, rfl | hc, hm⟩
      · exact Or.inl hm
      · exact Or.inr ⟨c, hc, hm⟩

/-- Unpacking `childrenBounded`. -/
theorem childrenBounded_mem {s e : Nat} :
    ∀ {cs : List Node}, childrenBounded s e cs = true →
      ∀ c ∈ cs, s ≤ c.start ∧ c.stop ≤ e := by
  intro cs
  induction cs with
  | nil => simp
  | cons c cs ih =>
    intro h x hx
    simp only [childrenBounded, Bool.and_eq_true, decide_eq_true_eq] at h
    rcases List.mem_cons.mp hx with rfl | hx
    · exact h.1
    · exact ih h.2 x hx

/-- Unpacking `wfList`. -/
theorem wfList_mem :
    ∀ {ns : List Node}, wfList ns = true → ∀ c ∈ ns, wf c = true := by
  intro ns
  induction ns with
  | nil => simp
  | cons n ns ih =>
    intro h c hc
    rw [wfList, Bool.and_eq_true] at h
    rcases List.mem_cons.mp hc with rfl | hc
    · exact h.1
    · exact ih h.2 c hc

/-- A well-formed node has a proper span. -/
theorem wf_start_le_stop {n : Node} (h : wf n = true) : n.start ≤ n.stop := by
  cases n with
  | mk s e k cs =>
    rw [wf, Bool.and_eq_true, Bool.and_eq_true, Bool.and_eq_true] at h
    simpa [Node.start, Node.stop] using of_decide_eq_true h.1.1.1

/-- Sibling order is preserved by dropping the head. -/
theorem siblingsOrdered_tail {n : Node} :
    ∀ {ns : List Node}, siblingsOrdered (n :: ns) = true → siblingsOrdered ns = true := by
  intro ns h
  cases ns with
  | nil => rfl
  | cons b rest =>
    rw [siblingsOrdered, Bool.and_eq_true] at h
    exact h.2

/-- The head of an ordered sibling list ends before every later sibling
starts (later siblings needing proper spans to chain through). -/
theorem siblingsOrdered_head_le {n : Node} :
    ∀ {ns : List Node}, siblingsOrdered (n :: ns) = true →
      (∀ x ∈ ns, x.start ≤ x.stop) → ∀ c ∈ ns, n.stop ≤ c.start := by
  intro ns
  induction ns generalizing n with
  | nil => simp
  | cons b rest ih =>
    intro h hspan c hc
    rw [siblingsOrdered, Bool.and_eq_true, decide_eq_true_eq] at h
    rcases List.mem_cons.mp hc with rfl | hc
    · exact h.1
    · have hb : b.start ≤ b.stop := hspan b (List.mem_cons_self b rest)
      have := ih h.2 (fun x hx => hspan x (List.mem_cons_of_mem b hx)) c hc
      omega

mutual
/-- Every node in the pre-order listing of a well-formed tree lies
inside the root's span and has a proper span itself. -/
theorem subnodes_bounds : ∀ (n : Node), wf n = true →
    ∀ m ∈ subnodes n, n.start ≤ m.start ∧ m.start ≤ m.stop ∧ m.stop ≤ n.stop
  | .mk s e k cs => by
    intro hwf m hm
    rw [wf, Bool.and_eq_true, Bool.and_eq_true, Bool.and_eq_true] at hwf
    obtain ⟨⟨⟨hse, hcb⟩, _⟩, hwl⟩ := hwf
    have hse : s ≤ e := of_decide_eq_true hse
    rw [subnodes] at hm
    rcases List.mem_cons.mp hm with rfl | hm
    · simp [Node.start, Node.stop, hse]
    · obtain ⟨c, hc, h1, h2, h3⟩ := subnodesList_bounds cs hwl m hm
      obtain ⟨hcs, hce⟩ := childrenBounded_mem hcb c hc
      exact ⟨by change s ≤ m.start; omega, h2, by change m.stop ≤ e; omega⟩

/-- Forest version of `subnodes_bounds`: every listed node lies inside
the span of the tree of the forest it came from. -/
theorem subnodesList_bounds : ∀ (ns : List Node), wfList ns = true →
    ∀ m ∈ subnodesList ns,
      ∃ c ∈ ns, c.start ≤ m.start ∧ m.start ≤ m.stop ∧ m.stop ≤ c.stop
  | [] => by simp [subnodesList]
  | n :: ns => by
    intro hwl m hm
    rw [wfList, Bool.and_eq_true] at hwl
    rw [subnodesList] at hm
    rcases List.mem_append.mp hm with hm | hm
    · exact ⟨n, List.mem_cons_self n ns, subnodes_bounds n hwl.1 m hm⟩
    · obtain ⟨c, hc, hb⟩ := subnodesList_bounds ns hwl.2 m hm
      exact ⟨c, List.mem_cons_of_mem n hc, hb⟩
end

mutual
/-- The walk only returns nodes of the tree, and only ones starting at
or after the requested position. -/
theorem findNodeAfter_sound : ∀ (n : Node) (pos : Nat) (r : Node),
    findNodeAfter n pos = .ok (some r) → r ∈ subnodes n ∧ pos ≤ r.start
  | .mk s e k cs, pos, r => by
    intro h
    rw [findNodeAfter] at h
    by_cases h1 : e < pos
    · simp [h1] at h
    · by_cases h2 : pos ≤ s
      · simp only [h1, if_false, h2, if_true, Except.ok.injEq, Option.some.injEq] at h
        subst h
        exact ⟨by rw [subnodes]; exact List.mem_cons_self _ _, by simpa [Node.start] using h2⟩
      · by_cases h3 : baseHandled k = true
        · simp only [h1, if_false, h2, h3, if_true] at h
          obtain ⟨hr, hpos⟩ := findNodeAfterList_sound cs pos r h
          exact ⟨by rw [subnodes]; exact List.mem_cons_of_mem _ hr, hpos⟩
        · simp [h1, h2, h3] at h

/-- Forest version of `findNodeAfter_sound`. -/
theorem findNodeAfterList_sound : ∀ (ns : List Node) (pos : Nat) (r : Node),
    findNodeAfterList ns pos = .ok (some r) → r ∈ subnodesList ns ∧ pos ≤ r.start
  | [], pos, r => by intro h; rw [findNodeAfterList] at h; exact absurd h (by simp)
  | n :: ns, pos, r => by
    intro h
    rw [findNodeAfterList] at h
    cases hn : findNodeAfter n pos with
    | error e0 => rw [hn] at h; exact absurd h (by simp)
    | ok o =>
      cases o with
      | some r0 =>
        rw [hn] at h
        cases h
        obtain ⟨hr, hpos⟩ := findNodeAfter_sound n pos r hn
        exact ⟨by rw [subnodesList]; exact List.mem_append_left _ hr, hpos⟩
      | none =>
        rw [hn] at h
        obtain ⟨hr, hpos⟩ := findNodeAfterList_sound ns pos r h
        exact ⟨by rw [subnodesList]; exact List.mem_append_right _ hr, hpos⟩
end

mutual
/-- When the walk completes finding nothing, no node of a well-formed
tree starts at or after the position. -/
theorem findNodeAfter_complete : ∀ (n : Node) (pos : Nat), wf n = true →
    findNodeAfter n pos = .ok none → ∀ m ∈ subnodes n, m.start < pos
  | .mk s e k cs, pos => by
    intro hwf h m hm
    rw [findNodeAfter] at h
    by_cases h1 : e < pos
    · obtain ⟨_, h2, h3⟩ := subnodes_bounds _ hwf m hm
      have h4 : m.stop ≤ e := h3
      omega
    · by_cases h2 : pos ≤ s
      · simp [h1, h2] at h
      · by_cases h3 : baseHandled k = true
        · simp only [h1, if_false, h2, h3, if_true] at h
          rw [wf, Bool.and_eq_true, Bool.and_eq_true, Bool.and_eq_true] at hwf
          rw [subnodes] at hm
          rcases List.mem_cons.mp hm with rfl | hm
          · simp only [Node.start]; omega
          · exact findNodeAfterList_complete cs pos hwf.2 h m hm
        · simp [h1, h2, h3] at h

/-- Forest version of `findNodeAfter_complete`. -/
theorem findNodeAfterList_complete : ∀ (ns : List Node) (pos : Nat), wfList ns = true →
    findNodeAfterList ns pos = .ok none → ∀ m ∈ subnodesList ns, m.start < pos
  | [], pos => by simp [subnodesList]
  | n :: ns, pos => by
    intro hwl h m hm
    rw [wfList, Bool.and_eq_true] at hwl
    rw [findNodeAfterList] at h
    cases hn : findNodeAfter n pos with
    | error e0 => rw [hn] at h; exact absurd h (by simp)
    | ok o =>
      cases o with
      | some r0 => rw [hn] at h; exact absurd h (by simp)
      | none =>
        rw [hn] at h
        rw [subnodesList] at hm
        rcases List.mem_append.mp hm with hm | hm
        · exact findNodeAfter_complete n pos hwl.1 hn m hm
        · exact findNodeAfterList_complete ns pos hwl.2 h m hm
end

mutual
/-- Minimality: on a well-formed tree a completed walk's result starts
no later than any node starting at or after the position —
`findNodeAfter` is a forward nearest-neighbour search by start
offset. -/
theorem findNodeAfter_min : ∀ (n : Node) (pos : Nat) (r : Node), wf n = true →
    findNodeAfter n pos = .ok (some r) → ∀ m ∈ subnodes n, pos ≤ m.start → r.start ≤ m.start
  | .mk s e k cs, pos, r => by
    intro hwf h m hm hpos
    rw [findNodeAfter] at h
    by_cases h1 : e < pos
    · simp [h1] at h
    · by_cases h2 : pos ≤ s
      · simp only [h1, if_false, h2, if_true, Except.ok.injEq, Option.some.injEq] at h
        subst h
        obtain ⟨h3, _, _⟩ := subnodes_bounds _ hwf m hm
        simpa [Node.start] using h3
      · by_cases h3 : baseHandled k = true
        · simp only [h1, if_false, h2, h3, if_true] at h
          rw [wf, Bool.and_eq_true, Bool.and_eq_true, Bool.and_eq_true] at hwf
          obtain ⟨⟨⟨_, _⟩, hso⟩, hwl⟩ := hwf
          rw [subnodes] at hm
          rcases List.mem_cons.mp hm with rfl | hm
          · simp only [Node.start] at hpos; omega
          · exact findNodeAfterList_min cs pos r hwl hso h m hm hpos
        · simp [h1, h2, h3] at h

/-- Forest version of `findNodeAfter_min`. -/
theorem findNodeAfterList_min : ∀ (ns : List Node) (pos : Nat) (r : Node),
    wfList ns = true → siblingsOrdered ns = true →
    findNodeAfterList ns pos = .ok (some r) →
    ∀ m ∈ subnodesList ns, pos ≤ m.start → r.start ≤ m.start
  | [], pos, r => by simp [subnodesList]
  | n :: ns, pos, r => by
    intro hwl hso h m hm hpos
    rw [wfList, Bool.and_eq_true] at hwl
    rw [findNodeAfterList] at h
    rw [subnodesList] at hm
    cases hn : findNodeAfter n pos with
    | error e0 => rw [hn] at h; exact absurd h (by simp)
    | ok o =>
      cases o with
      | some r0 =>
        rw [hn] at h
        cases h
        rcases List.mem_append.mp hm with hm | hm
        · exact findNodeAfter_min n pos r hwl.1 hn m hm hpos
        · -- m lives in a later sibling: r ends inside n, which ends before it
          obtain ⟨hrmem, _⟩ := findNodeAfter_sound n pos r hn
          obtain ⟨hr1, hr2, hr3⟩ := subnodes_bounds n hwl.1 r hrmem
          obtain ⟨c, hc, hcm⟩ := mem_subnodesList.mp hm
          have hcw : wf c = true := wfList_mem hwl.2 c hc
          obtain ⟨hc1, _, _⟩ := subnodes_bounds c hcw m hcm
          have hns : n.stop ≤ c.start :=
            siblingsOrdered_head_le hso
              (fun x hx => wf_start_le_stop (wfList_mem hwl.2 x hx)) c hc
          omega
      | none =>
        rw [hn] at h
        rcases List.mem_append.mp hm with hm | hm
        · have := findNodeAfter_complete n pos hwl.1 hn m hm
          omega
        · exact findNodeAfterList_min ns pos r hwl.2 (siblingsOrdered_tail hso) h m hm hpos
end

mutual
/-- On a tree free of JSX nodes every descent has a base visitor, so
the walk always completes — it returns instead of throwing. -/
theorem findNodeAfter_total : ∀ (n : Node) (pos : Nat), jsxFree n = true →
    ∃ o, findNodeAfter n pos = .ok o
  | .mk s e k cs, pos => by
    intro hj
    rw [jsxFree, Bool.and_eq_true] at hj
    rw [findNodeAfter]
    by_cases h1 : e < pos
    · exact ⟨none, by simp [h1]⟩
    · by_cases h2 : pos ≤ s
      · exact ⟨some (.mk s e k cs), by simp [h1, h2]⟩
      · obtain ⟨o, ho⟩ := findNodeAfterList_total cs pos hj.2
        exact ⟨o, by simp [h1, h2, hj.1, ho]⟩

/-- Forest version of `findNodeAfter_total`. -/
theorem findNodeAfterList_total : ∀ (ns : List Node) (pos : Nat), jsxFreeList ns = true →
    ∃ o, findNodeAfterList ns pos = .ok o
  | [], _ => by intro _; exact ⟨none, rfl⟩
  | n :: ns, pos => by
    intro hj
    rw [jsxFreeList, Bool.and_eq_true] at hj
    rw [findNodeAfterList]
    obtain ⟨o, ho⟩ := findNodeAfter_total n pos hj.1
    cases o with
    | some r => exact ⟨some r, by rw [ho]⟩
    | none =>
      obtain ⟨o2, ho2⟩ := findNodeAfterList_total ns pos hj.2
      exact ⟨o2, by rw [ho, ho2]⟩
end

/-! ## Helper lemmas: push-style folds -/

/-- A `forEach`/`push` loop appends the mapped elements after the prior
accumulator content. -/
theorem foldl_push_eq_map {α β : Type} (f : α → β) :
    ∀ (l : List α) (acc : List β), l.foldl (fun a d => a ++ [f d]) acc = acc ++ l.map f := by
  intro l
  induction l with
  | nil => intro acc; simp
  | cons x xs ih => intro acc; simp [List.foldl_cons, ih]

/-- The `onComment` callback keeps exactly the block comments whose
first content character is `*`, in event order, recording text and end
offset. -/
theorem collectComments_eq_filterMap :
    ∀ (events : List CommentEvent),
      collectComments events =
        (events.filter (fun e => e.block && (e.text.front == '*'))).map
          (fun e => ⟨e.text, e.endOffset⟩ : CommentEvent → RawComment) := by
  have h : ∀ (events : List CommentEvent) (arr : List RawComment),
      events.foldl onComment arr =
        arr ++ (events.filter (fun e => e.block && (e.text.front == '*'))).map
          (fun e => ⟨e.text, e.endOffset⟩ : CommentEvent → RawComment) := by
    intro events
    induction events with
    | nil => intro arr; simp
    | cons e es ih =>
      intro arr
      by_cases hb : (e.block && (e.text.front == '*')) = true
      · simp [List.foldl_cons, onComment, hb, ih, List.filter_cons]
      · simp [List.foldl_cons, onComment, hb, ih, List.filter_cons]
  intro events
  simpa [collectComments] using h events []

/-! ## Helper lemmas: the orchestrator loop -/

/-- Full characterisation of the `list.map` loop when every read
succeeds: results are the per-file tags in selector order, and
`badFiles` collects, in order, exactly the paths whose parse threw. -/
theorem runExtract_char :
    ∀ (files : List SFile) (st : ExtractState), allReadable files →
      runExtract st files =
        .ok ⟨st.results ++ files.map fileTag,
             st.badFiles ++ (files.filter parseFailed).map (fun f => f.path)⟩ := by
  intro files
  induction files with
  | nil => intro st _; simp [runExtract]
  | cons f fs ih =>
    intro st hread
    have hf : f.read ≠ .readError := hread f (List.mem_cons_self f fs)
    have hfs : allReadable fs := fun g hg => hread g (List.mem_cons_of_mem f hg)
    cases hr : f.read with
    | readError => exact absurd hr hf
    | content po =>
      cases hp : acornParse po [] with
      | error tc =>
        have : runExtract st (f :: fs) =
            runExtract ⟨st.results ++ [⟨f.path, tc⟩], st.badFiles ++ [f.path]⟩ fs := by
          simp [runExtract, hr, processFile, hp, errorHandler]
        rw [this, ih _ hfs]
        simp [fileTag, hr, hp, parseFailed, List.filter_cons]
      | ok tc =>
        have : runExtract st (f :: fs) =
            runExtract ⟨st.results ++ [⟨f.path, tc⟩], st.badFiles⟩ fs := by
          simp [runExtract, hr, processFile, hp]
        rw [this, ih _ hfs]
        simp [fileTag, hr, hp, parseFailed, List.filter_cons]

/-- `extract` over readable files resolves with the tags in selector
order. -/
theorem extract_char (files : List SFile) (h : allReadable files) :
    extract files = .ok (files.map fileTag) := by
  simp [extract, runExtract_char files ⟨[], []⟩ h, Except.map]

/-! ## Helper lemmas: the binder's per-kind output -/

/-- A comment whose walk completes with no following node contributes
nothing. -/
theorem bindOne_none {tree : Node} {c : RawComment}
    (h : findNodeAfter tree c.pos = .ok none) : bindOne tree c = .ok [] := by
  simp [bindOne, bindComment, h]

/-- A comment bound to a `VariableDeclaration` contributes one record
per declarator, in declarator order, all with the comment's text and
each named by its declarator's `id.name`. -/
theorem bindOne_varDecl {tree : Node} {c : RawComment} {n : Node} {ds : List Declarator}
    (h : findNodeAfter tree c.pos = .ok (some n)) (hk : n.kind = .variableDeclaration ds) :
    bindOne tree c = .ok (ds.map (fun d => ⟨c.comment, d.id.name⟩)) := by
  simp [bindOne, bindComment, h, hk, foldl_push_eq_map]

/-- A comment bound to a `FunctionDeclaration` contributes one record
named by the function's identifier. -/
theorem bindOne_funcDecl {tree : Node} {c : RawComment} {n : Node} {idName : String}
    (h : findNodeAfter tree c.pos = .ok (some n)) (hk : n.kind = .functionDeclaration idName) :
    bindOne tree c = .ok [⟨c.comment, some idName⟩] := by
  simp [bindOne, bindComment, h, hk]

/-- A parse-stage throw makes `parseFailed` true. -/
theorem parseFailed_of_failure {f : SFile} (h : f.read = .content .failure) :
    parseFailed f = true := by
  simp [parseFailed, h, acornParse]

/-- The tag of a file whose parse throws carries no content: nothing
was pushed before the parser raised. -/
theorem fileTag_of_parseFailed {f : SFile} (h : f.read = .content .failure) :
    fileTag f = ⟨f.path, []⟩ := by
  simp [fileTag, h, acornParse]

/-- Readability restricts to sublists on the left of an append. -/
theorem allReadable_append_left {l r : List SFile} (h : allReadable (l ++ r)) :
    allReadable l :=
  fun f hf => h f (List.mem_append_left r hf)

/-- Readability restricts to sublists on the right of an append. -/
theorem allReadable_append_right {l r : List SFile} (h : allReadable (l ++ r)) :
    allReadable r :=
  fun f hf => h f (List.mem_append_right l hf)

/-- A `readFileSync` throw anywhere in the file list escapes the
`list.map` callback and fails the whole loop. -/
theorem runExtract_error : ∀ (files : List SFile) (st : ExtractState),
    (∃ f ∈ files, f.read = .readError) → runExtract st files = .error ()
  | [], _ => by simp
  | f :: fs, st => by
    intro h
    cases hr : f.read with
    | readError => simp [runExtract, hr]
    | content po =>
      obtain ⟨g, hg, hge⟩ := h
      rcases List.mem_cons.mp hg with rfl | hg2
      · rw [hr] at hge
        exact absurd hge (by simp)
      · rw [runExtract, hr]
        exact runExtract_error fs _ ⟨g, hg2, hge⟩

/-! ## Claim theorems -/

/-- C1 (counterexample): the claim says the value `extract` resolves
with contains both the FileResult sequence and the failed-file set.
It does not: a run over one unparsable file and a run over a same-path
file that parses cleanly with no comments build different internal
`badFiles` states, yet `extract` resolves with identical values — so
the resolved value handed to the caller carries no failure set at all
(`badFiles` is only printed to the console inside `extract`). -/
theorem extract_resolved_value_omits_failure_set :
    runExtract ⟨[], []⟩ [badFile] = .ok ⟨[⟨"src/broken.js", []⟩], ["src/broken.js"]⟩ ∧
    runExtract ⟨[], []⟩ [emptyParseFile] = .ok ⟨[⟨"src/broken.js", []⟩], []⟩ ∧
    extract [badFile] = extract [emptyParseFile] ∧
    extract [badFile] = .ok [⟨"src/broken.js", []⟩] :=
  ⟨rfl, rfl, rfl, rfl⟩

/-- C1 (amended): when extraction completes it resolves with the full
ordered sequence of FileResult only; the paths of files that failed to
parse are accumulated in the internal `badFiles` list (in failure
order, for console reporting) but are not part of the resolved
value. -/
theorem extract_resolves_with_results_only (files : List SFile) (h : allReadable files) :
    extract files = .ok (files.map fileTag) ∧
    runExtract ⟨[], []⟩ files =
      .ok ⟨files.map fileTag, (files.filter parseFailed).map (fun f => f.path)⟩ := by
  refine ⟨extract_char files h, ?_⟩
  simpa using runExtract_char files ⟨[], []⟩ h

/-- Witness for the amended C1: a concrete two-file run with one parse
failure resolves with the two tags and holds the one bad path only in
the internal state. -/
theorem extract_resolves_with_results_only_witness :
    extract [goodFile, badFile] =
      .ok [⟨"src/add.js", [⟨"* Adds two numbers ", some "add"⟩]⟩, ⟨"src/broken.js", []⟩] ∧
    runExtract ⟨[], []⟩ [goodFile, badFile] =
      .ok ⟨[⟨"src/add.js", [⟨"* Adds two numbers ", some "add"⟩]⟩, ⟨"src/broken.js", []⟩],
           ["src/broken.js"]⟩ := by
  have h := extract_resolves_with_results_only [goodFile, badFile] (by
    intro f hf
    rcases List.mem_cons.mp hf with rfl | hf
    · simp [goodFile]
    rcases List.mem_cons.mp hf with rfl | hf
    · simp [badFile]
    · simp at hf)
  exact h

/-- C2: over readable files the resolved output has exactly one
FileResult per file yielded by the Selector — parse failures
included. -/
theorem extract_one_result_per_file (files : List SFile) (h : allReadable files) :
    ∃ rs, extract files = .ok rs ∧ rs.length = files.length :=
  ⟨files.map fileTag, extract_char files h, by simp⟩

/-- Witness for C2: two selected files, one of which fails to parse,
give exactly two FileResults. -/
theorem extract_one_result_per_file_witness :
    ∃ rs, extract [goodFile, badFile] = .ok rs ∧ rs.length = 2 :=
  extract_one_result_per_file [goodFile, badFile] (by
    intro f hf
    rcases List.mem_cons.mp hf with rfl | hf
    · simp [goodFile]
    rcases List.mem_cons.mp hf with rfl | hf
    · simp [badFile]
    · simp at hf)

/-- C3: a parse failure is recovered locally — the run completes, the
bad path is recorded in the failure list, and every other file
contributes exactly the result it would contribute in a run without
the bad file. -/
theorem parse_failure_recovered_locally (pre post : List SFile) (bad : SFile)
    (hread : allReadable (pre ++ bad :: post)) (hbad : bad.read = .content .failure) :
    runExtract ⟨[], []⟩ (pre ++ bad :: post) =
      .ok ⟨pre.map fileTag ++ ⟨bad.path, []⟩ :: post.map fileTag,
           (pre.filter parseFailed).map (fun f => f.path) ++
             bad.path :: (post.filter parseFailed).map (fun f => f.path)⟩ ∧
    extract (pre ++ post) = .ok (pre.map fileTag ++ post.map fileTag) := by
  constructor
  · rw [runExtract_char (pre ++ bad :: post) ⟨[], []⟩ hread]
    simp [List.filter_append, List.filter_cons, parseFailed_of_failure hbad,
      fileTag_of_parseFailed hbad]
  · have hpre := allReadable_append_left hread
    have hpost : allReadable post := fun f hf =>
      allReadable_append_right hread f (List.mem_cons_of_mem bad hf)
    have : allReadable (pre ++ post) := fun f hf => by
      rcases List.mem_append.mp hf with hf | hf
      · exact hpre f hf
      · exact hpost f hf
    rw [extract_char (pre ++ post) this]
    simp

/-- Witness for C3: a bad file between two good ones is recorded while
both neighbours keep the results they have in the run without it. -/
theorem parse_failure_recovered_locally_witness :
    runExtract ⟨[], []⟩ [goodFile, badFile, twoFuncFile] =
      .ok ⟨[⟨"src/add.js", [⟨"* Adds two numbers ", some "add"⟩]⟩,
            ⟨"src/broken.js", []⟩,
            ⟨"src/two.js", [⟨"* A ", some "a"⟩, ⟨"* B ", some "b"⟩]⟩],
           ["src/broken.js"]⟩ ∧
    extract [goodFile, twoFuncFile] =
      .ok [⟨"src/add.js", [⟨"* Adds two numbers ", some "add"⟩]⟩,
           ⟨"src/two.js", [⟨"* A ", some "a"⟩, ⟨"* B ", some "b"⟩]⟩] := by
  have h := parse_failure_recovered_locally [goodFile] [twoFuncFile] badFile (by
    intro f hf
    rcases List.mem_cons.mp hf with rfl | hf
    · simp [goodFile]
    rcases List.mem_cons.mp hf with rfl | hf
    · simp [badFile]
    rcases List.mem_cons.mp hf with rfl | hf
    · simp [twoFuncFile]
    · simp at hf) rfl
  exact h

/-- C4 (counterexample): the claim says a file that fails during
parsing or binding keeps no TaggedComment extracted before the
failure.  False: in the JSX file the first comment binds to `render`
and pushes its tag, then the walk for the comment inside the JSX
element throws the base walker's TypeError; `extract` catches it,
records the file as bad, and still returns the tag — with the
partial content kept in the resolved output. -/
theorem binding_throw_keeps_partial_tags :
    acornParse (.success jsxTree jsxEvents) [] =
      .error [⟨"* renders ", some "render"⟩] ∧
    runExtract ⟨[], []⟩ [jsxFile] =
      .ok ⟨[⟨"src/render.jsx", [⟨"* renders ", some "render"⟩]⟩], ["src/render.jsx"]⟩ ∧
    extract [jsxFile] = .ok [⟨"src/render.jsx", [⟨"* renders ", some "render"⟩]⟩] ∧
    ([⟨"* renders ", some "render"⟩] : List TaggedComment) ≠ [] :=
  ⟨rfl, rfl, rfl, by decide⟩

/-- C4 (amended): only a parse-stage failure is atomic — the parser
throws before anything is pushed, so that file's FileResult content is
empty; a file whose binding walk throws keeps, in its FileResult, the
TaggedComments pushed before the exception, and is recorded in the
failure set either way. -/
theorem failure_content_by_stage (files : List SFile) (f : SFile)
    (hread : allReadable files) (hf : f ∈ files) :
    (∀ tagContent, acornParse .failure tagContent = .error tagContent) ∧
    extract files = .ok (files.map fileTag) ∧
    (f.read = .content .failure →
      fileTag f = ⟨f.path, []⟩ ∧ (⟨f.path, []⟩ : FileResult) ∈ files.map fileTag) ∧
    (∀ po tc, f.read = .content po → acornParse po [] = .error tc →
      fileTag f = ⟨f.path, tc⟩ ∧ parseFailed f = true ∧
        (⟨f.path, tc⟩ : FileResult) ∈ files.map fileTag) := by
  refine ⟨fun _ => rfl, extract_char files hread, ?_, ?_⟩
  · intro hfail
    refine ⟨fileTag_of_parseFailed hfail, ?_⟩
    have := List.mem_map_of_mem fileTag hf
    rwa [fileTag_of_parseFailed hfail] at this
  · intro po tc hpo hp
    have htag : fileTag f = ⟨f.path, tc⟩ := by simp [fileTag, hpo, hp]
    refine ⟨htag, by simp [parseFailed, hpo, hp], ?_⟩
    have := List.mem_map_of_mem fileTag hf
    rwa [htag] at this

/-- Witness for the amended C4: the parse-stage bad file keeps empty
content while the JSX file keeps its one pre-throw tag, and both are
marked failed. -/
theorem failure_content_by_stage_witness :
    extract [badFile, jsxFile] =
      .ok [⟨"src/broken.js", []⟩,
           ⟨"src/render.jsx", [⟨"* renders ", some "render"⟩]⟩] ∧
    fileTag jsxFile = ⟨"src/render.jsx", [⟨"* renders ", some "render"⟩]⟩ ∧
    parseFailed jsxFile = true ∧
    fileTag badFile = ⟨"src/broken.js", []⟩ := by
  have h := failure_content_by_stage [badFile, jsxFile] jsxFile (by
    intro f hf
    rcases List.mem_cons.mp hf with rfl | hf
    · simp [badFile]
    rcases List.mem_cons.mp hf with rfl | hf
    · simp [jsxFile]
    · simp at hf)
    (List.mem_cons_of_mem badFile (List.mem_cons_self jsxFile []))
  have h2 := h.2.2.2 (.success jsxTree jsxEvents) [⟨"* renders ", some "render"⟩] rfl rfl
  exact ⟨h.2.1, h2.1, h2.2.1, rfl⟩

/-- C5 (counterexample): the claim says for every collected doc
comment the binder selects the node with the least start offset at or
after the comment end, and raises no error when none exists.  False:
for the comment inside the JSX element a following node exists (the
closing element starts at 64 ≥ 63), yet the walk must descend into the
JSXElement, the base walker has no visitor for it, and `findNodeAfter`
rethrows the TypeError — the binder throws instead of selecting or
skipping. -/
theorem jsx_comment_walk_throws :
    wf jsxTree = true ∧
    (∃ m ∈ subnodes jsxTree, jsxComment.pos ≤ m.start) ∧
    findNodeAfter jsxTree jsxComment.pos = .error () ∧
    bindOne jsxTree jsxComment = .error [] :=
  ⟨by decide, by decide, rfl, rfl⟩

/-- C5 (amended): on a well-formed tree all of whose node types the
base walker can visit (no JSX nodes), the walk always completes, the
binder selects the node whose start offset is the least offset at or
after the comment end — a forward nearest-neighbour search — and when
no node starts at or after the comment (a trailing comment),
`findNodeAfter` yields `undefined`, the comment contributes zero
TaggedComments, and no error is raised (the `result === undefined`
guard returns early); a comment that makes the walk descend into a
JSX node instead rethrows the base walker's TypeError. -/
theorem findNodeAfter_forward_nearest (tree : Node) (c : RawComment)
    (hwf : wf tree = true) (hjsx : jsxFree tree = true) :
    (∃ o, findNodeAfter tree c.pos = .ok o) ∧
    (∀ r, findNodeAfter tree c.pos = .ok (some r) →
      r ∈ subnodes tree ∧ c.pos ≤ r.start ∧
        ∀ m ∈ subnodes tree, c.pos ≤ m.start → r.start ≤ m.start) ∧
    ((∀ m ∈ subnodes tree, m.start < c.pos) →
      findNodeAfter tree c.pos = .ok none ∧ bindOne tree c = .ok []) := by
  refine ⟨findNodeAfter_total tree c.pos hjsx, ?_, ?_⟩
  · intro r hr
    obtain ⟨hmem, hge⟩ := findNodeAfter_sound tree c.pos r hr
    exact ⟨hmem, hge, findNodeAfter_min tree c.pos r hwf hr⟩
  · intro hall
    have hnone : findNodeAfter tree c.pos = .ok none := by
      obtain ⟨o, ho⟩ := findNodeAfter_total tree c.pos hjsx
      cases o with
      | none => exact ho
      | some r =>
        obtain ⟨hmem, hge⟩ := findNodeAfter_sound tree c.pos r ho
        have := hall r hmem
        omega
    exact ⟨hnone, bindOne_none hnone⟩

/-- Witness for the amended C5: the `add` tree is well-formed and
JSX-free, the nearest-node property holds at the real comment position
23, and a trailing comment at offset 90 (past every node) yields no
node and no TaggedComment. -/
theorem findNodeAfter_forward_nearest_witness :
    (wf addTree = true ∧ jsxFree addTree = true ∧
      (∀ r, findNodeAfter addTree addComment.pos = .ok (some r) →
        r ∈ subnodes addTree ∧ addComment.pos ≤ r.start ∧
          ∀ m ∈ subnodes addTree, addComment.pos ≤ m.start → r.start ≤ m.start)) ∧
    (findNodeAfter addTree (90 : Nat) = .ok none ∧
      bindOne addTree ⟨"* trailing ", 90⟩ = .ok []) :=
  ⟨⟨by decide, by decide,
      (findNodeAfter_forward_nearest addTree addComment (by decide) (by decide)).2.1⟩,
    (findNodeAfter_forward_nearest addTree ⟨"* trailing ", 90⟩
      (by decide) (by decide)).2.2 (by decide)⟩

/-- C6: a doc comment whose nearest following node is a
VariableDeclaration with n declarators yields exactly n TaggedComments
in authored declarator order, all carrying the comment text, each
named by its declarator. -/
theorem varDecl_one_tag_per_declarator (tree : Node) (c : RawComment) (n : Node)
    (ds : List Declarator) (h : findNodeAfter tree c.pos = .ok (some n))
    (hk : n.kind = .variableDeclaration ds) :
    ∃ out, bindOne tree c = .ok out ∧
      out = ds.map (fun d => ⟨c.comment, d.id.name⟩) ∧
      out.length = ds.length ∧
      (∀ tc ∈ out, tc.comment = c.comment) ∧
      out.map (fun tc => tc.name) = ds.map (fun d => d.id.name) := by
  refine ⟨ds.map (fun d => ⟨c.comment, d.id.name⟩), bindOne_varDecl h hk, rfl,
    by simp, ?_, by simp⟩
  intro tc htc
  obtain ⟨d, _, rfl⟩ := List.mem_map.mp htc
  rfl

/-- Witness for C6: the `DEBUG, VERBOSE` scenario yields the two tags
in declarator order, both carrying the comment text. -/
theorem varDecl_one_tag_per_declarator_witness :
    bindOne configTree configComment =
      .ok [⟨"* Config flag ", some "DEBUG"⟩, ⟨"* Config flag ", some "VERBOSE"⟩] := by
  obtain ⟨out, hout, hmap, _⟩ := varDecl_one_tag_per_declarator configTree configComment
    (.mk 19 55 (.variableDeclaration [⟨.ident "DEBUG"⟩, ⟨.ident "VERBOSE"⟩])
      [.mk 25 37 .other [.mk 25 30 .other [], .mk 33 37 .other []],
       .mk 39 54 .other [.mk 39 46 .other [], .mk 49 54 .other []]])
    [⟨.ident "DEBUG"⟩, ⟨.ident "VERBOSE"⟩] rfl rfl
  rw [hout, hmap]
  rfl

/-- C7: the add-source scenario — extraction over that text yields
exactly one tag, the comment text `* Adds two numbers ` (delimiters
excluded) named `add` by the following FunctionDeclaration; and in
general the `onComment` callback collects precisely the block comments
whose first content character is `*`. -/
theorem add_function_scenario :
    acornParse (.success addTree addEvents) [] =
      .ok [⟨"* Adds two numbers ", some "add"⟩] ∧
    ∀ events : List CommentEvent,
      collectComments events =
        (events.filter (fun e => e.block && (e.text.front == '*'))).map
          (fun e => ⟨e.text, e.endOffset⟩) :=
  ⟨rfl, collectComments_eq_filterMap⟩

/-- C9: a destructuring declarator is neither skipped nor an error:
it still contributes its TaggedComment, whose `name` is `undefined`
(`none`) because the pattern node has no `.name`. -/
theorem destructuring_declarator_gets_undefined_name (tree : Node) (c : RawComment)
    (n : Node) (ds : List Declarator)
    (h : findNodeAfter tree c.pos = .ok (some n)) (hk : n.kind = .variableDeclaration ds) :
    ∃ out, bindOne tree c = .ok out ∧
      out.length = ds.length ∧
      (∀ d ∈ ds, (d.id = .objectPattern ∨ d.id = .arrayPattern) →
        (⟨c.comment, none⟩ : TaggedComment) ∈ out) ∧
      Pattern.name .objectPattern = none ∧ Pattern.name .arrayPattern = none := by
  refine ⟨ds.map (fun d => ⟨c.comment, d.id.name⟩), bindOne_varDecl h hk, by simp, ?_,
    rfl, rfl⟩
  intro d hd hpat
  refine List.mem_map.mpr ⟨d, hd, ?_⟩
  rcases hpat with h1 | h1 <;> simp [h1, Pattern.name]

/-- Witness for C9: the object-pattern scenario yields exactly one tag
whose name is `none`. -/
theorem destructuring_declarator_gets_undefined_name_witness :
    ∃ out, bindOne destructuringTree destructuringComment = .ok out ∧
      (⟨"* Point ", none⟩ : TaggedComment) ∈ out ∧ out.length = 1 := by
  obtain ⟨out, hout, hlen, hmem, _⟩ := destructuring_declarator_gets_undefined_name
    destructuringTree destructuringComment
    (.mk 13 32 (.variableDeclaration [⟨.objectPattern⟩])
      [.mk 19 31 .other [.mk 19 27 .other [], .mk 30 31 .other []]])
    [⟨.objectPattern⟩] rfl rfl
  exact ⟨out, hout, hmem ⟨.objectPattern⟩ (List.mem_singleton.mpr rfl) (Or.inl rfl), hlen⟩

/-- C10: a read failure is not caught locally — if any selected file
throws on `readFileSync`, the whole extraction rejects and no report
is produced, unlike the per-file handling of parse failures. -/
theorem read_failure_rejects_run (files : List SFile)
    (h : ∃ f ∈ files, f.read = .readError) : extract files = .error () := by
  rw [extract, runExtract_error files ⟨[], []⟩ h]
  rfl

/-- Witness for C10: a run holding one unreadable file rejects even
though its other file is fine. -/
theorem read_failure_rejects_run_witness : extract [goodFile, unreadableFile] = .error () :=
  read_failure_rejects_run [goodFile, unreadableFile]
    ⟨unreadableFile, List.mem_cons_of_mem goodFile (List.mem_cons_self unreadableFile []), rfl⟩

end GutenDocs
